import Mathlib

/-! GPIO poll loop (`src/gateway/gpio3.c`).

A shallow embedding of `main` from `gpio3.c` as a deterministic small-step machine over
the program points of the source, with the pin-access subsystem (wiringPi) and the C
standard library calls recorded as an event trace.

* The environment (`Env`) supplies what the program cannot decide itself: the value returned
  by `wiringPiSetup()` and the value returned by every `digitalRead` call.
* `step` executes one program point; `run` iterates it; `main` is `run` from process start.
* `stdout` collects the text of the `printf` calls of a trace.

Modelling choices:

* The channel table is a parameter of the machine, so that statements about every table can
  be made; the program itself runs on `valid_channels`. The table length is taken to fit in
  a C `int` (as it does for any array the program can hold), so `num_valid_channels` is the
  element count itself; the loop counters then never overflow.
* Values of type `int` are modelled by `Int`; every statement quantifies over all of `Int`,
  which includes the range of a C `int`.
* Library calls (`pinMode`, `pullUpDnControl`, `digitalRead`, `printf`, `fflush`, `delay`)
  return to the caller; their only modelled effect is the event they add to the trace.
  Buffering inside stdio and the passage of real time are not modelled.
-/

namespace Gpio3

/-! ## Data model -/

/-- Symbolic constants of `wiringPi.h` used by the program (`INPUT`, `PUD_UP`). -/
inductive WiringPiConst
  | INPUT
  | PUD_UP
  deriving DecidableEq, Repr

/-- One call made by `main` to the pin-access subsystem or to the C library, with its
arguments (and, for calls whose result is used, the returned value). -/
inductive Event
  | wiringPiSetup (ret : Int)
  | pinMode (pin : Int) (mode : WiringPiConst)
  | pullUpDnControl (pin : Int) (pud : WiringPiConst)
  | digitalRead (pin : Int) (value : Int)
  | printf (text : List Char)
  | fflush
  | delay (ms : Int)
  deriving DecidableEq, Repr

/-- The external world: the result of `wiringPiSetup()` and, for the `k`-th call of
`digitalRead` (counted from 0) on pin `pin`, the `int` it returns. -/
structure Env where
  setupResult : Int
  readValue : Nat → Int → Int

/-- Program points of `main` (line numbers of `gpio3.c`). -/
inductive Pc
  /-- line 10: about to evaluate `wiringPiSetup() == -1` -/
  | entry
  /-- line 15: test `i < num_valid_channels` of the initialisation loop -/
  | initFor (i : Nat)
  /-- line 21: test of `while (1)` -/
  | whileHead
  /-- line 22: test `i < num_valid_channels` of the sweep loop -/
  | sweepFor (i : Nat)
  /-- line 27: about to `printf("\n")` -/
  | printNewline
  /-- line 28: about to `fflush(stdout)` -/
  | flush
  /-- line 29: about to `delay(100)` -/
  | delay
  /-- line 31: about to `return 0` -/
  | return0
  /-- `main` has returned with the given status -/
  | exited (status : Int)
  deriving DecidableEq, Repr

/-- Machine state: program point, the calls made so far (oldest first), and the number of
`digitalRead` calls made so far. -/
structure State where
  pc : Pc
  trace : List Event
  reads : Nat
  deriving DecidableEq, Repr

/-! ## The program -/

/-- Line 6: `int valid_channels[] = {0, 2, 3, 7, 12, 13, 14, 15, 16};` -/
def valid_channels : List Int := [0, 2, 3, 7, 12, 13, 14, 15, 16]

/-- Line 7: `sizeof(valid_channels) / sizeof(valid_channels[0])`, the element count of the
table, as an `int`. -/
def num_valid_channels (table : List Int) : Int := (table.length : Int)

/-- The conversion `%d` of `printf`: an optional minus sign followed by the decimal digits
of the magnitude, no padding. -/
def fmtD (v : Int) : List Char :=
  if v < 0 then '-' :: Nat.toDigits 10 v.natAbs else Nat.toDigits 10 v.natAbs

/-- State of the process when `main` is entered. -/
def initial : State := ⟨Pc.entry, [], 0⟩

/-- One step of `main`, for the channel table `table` (the program itself runs with
`valid_channels`). A state whose program point is `exited` does not move. -/
def step (env : Env) (table : List Int) (s : State) : State :=
  match s.pc with
  | Pc.entry =>
      -- if (wiringPiSetup() == -1) { return 1; }
      let r := env.setupResult
      if r = -1 then ⟨Pc.exited 1, s.trace ++ [Event.wiringPiSetup r], s.reads⟩
      else ⟨Pc.initFor 0, s.trace ++ [Event.wiringPiSetup r], s.reads⟩
  | Pc.initFor i =>
      -- for (int i = 0; i < num_valid_channels; i++) { ... }
      if (i : Int) < num_valid_channels table then
        let pin := table.getD i 0
        ⟨Pc.initFor (i + 1),
          s.trace ++ [Event.pinMode pin WiringPiConst.INPUT,
                      Event.pullUpDnControl pin WiringPiConst.PUD_UP],
          s.reads⟩
      else ⟨Pc.whileHead, s.trace, s.reads⟩
  | Pc.whileHead =>
      -- while (1)
      if (1 : Int) ≠ 0 then ⟨Pc.sweepFor 0, s.trace, s.reads⟩
      else ⟨Pc.return0, s.trace, s.reads⟩
  | Pc.sweepFor i =>
      -- for (int i = 0; i < num_valid_channels; i++) { ... }
      if (i : Int) < num_valid_channels table then
        let pin := table.getD i 0
        let value := env.readValue s.reads pin
        -- printf("%d%s", value, (i == num_valid_channels - 1) ? "" : ",");
        let sep : List Char := if (i : Int) = num_valid_channels table - 1 then [] else [',']
        ⟨Pc.sweepFor (i + 1),
          s.trace ++ [Event.digitalRead pin value, Event.printf (fmtD value ++ sep)],
          s.reads + 1⟩
      else ⟨Pc.printNewline, s.trace, s.reads⟩
  | Pc.printNewline => ⟨Pc.flush, s.trace ++ [Event.printf ['\n']], s.reads⟩
  | Pc.flush => ⟨Pc.delay, s.trace ++ [Event.fflush], s.reads⟩
  | Pc.delay => ⟨Pc.whileHead, s.trace ++ [Event.delay 100], s.reads⟩
  | Pc.return0 => ⟨Pc.exited 0, s.trace, s.reads⟩
  | Pc.exited _ => s

/-- Run `n` steps from state `s`. -/
def run (env : Env) (table : List Int) : Nat → State → State
  | 0, s => s
  | n + 1, s => run env table n (step env table s)

/-- The bytes written to standard output by the calls of a trace. -/
def stdout : List Event → List Char
  | [] => []
  | Event.printf text :: es => text ++ stdout es
  | _ :: es => stdout es

/-- Number of steps `main` takes from entry to the first test of `while (1)`, when setup
succeeds: the setup test, one step per channel, and the failing loop test. -/
def initSteps (table : List Int) : Nat := table.length + 2

/-- Number of steps of one iteration of the poll loop, from one test of `while (1)` to the
next: the `while` test, one step per channel, the failing loop test, and lines 27 to 29. -/
def cycleSteps (table : List Int) : Nat := table.length + 5

/-- The bytes that `n` steps from `s` add to standard output. -/
def emitted (env : Env) (table : List Int) (n : Nat) (s : State) : List Char :=
  (stdout (run env table n s).trace).drop (stdout s.trace).length

/-- The events that `n` steps from `s` add to the trace. -/
def issued (env : Env) (table : List Int) (n : Nat) (s : State) : List Event :=
  (run env table n s).trace.drop s.trace.length

/-! ## Reference descriptions of what one phase of the program does -/

/-- The pin configuration of the initialisation phase: for each channel, in table order,
set it to input and then enable its pull-up. -/
def configEvents : List Int → List Event
  | [] => []
  | c :: cs =>
      Event.pinMode c WiringPiConst.INPUT :: Event.pullUpDnControl c WiringPiConst.PUD_UP
        :: configEvents cs

/-- The values returned by the reads of one sweep over the channels `cs`, when `k` reads
have been made before it. -/
def sweepValues (env : Env) (k : Nat) : List Int → List Int
  | [] => []
  | c :: cs => env.readValue k c :: sweepValues env (k + 1) cs

/-- The calls of one sweep over the channels `cs`: each channel is read and its value is
printed at once, followed by a comma unless it is the last channel. -/
def sweepEvents (env : Env) (k : Nat) : List Int → List Event
  | [] => []
  | c :: cs =>
      Event.digitalRead c (env.readValue k c)
        :: Event.printf (fmtD (env.readValue k c) ++ (if cs = [] then [] else [',']))
        :: sweepEvents env (k + 1) cs

/-- The calls of one iteration of the poll loop. -/
def cycleEvents (env : Env) (k : Nat) (table : List Int) : List Event :=
  sweepEvents env k table ++ [Event.printf ['\n'], Event.fflush, Event.delay 100]

/-- The output line for a vector of sampled values: their decimal renderings joined by
single commas, then a newline. -/
def line (vs : List Int) : List Char :=
  List.intercalate [','] (vs.map fmtD) ++ ['\n']

/-- Program points of the steady-state phase (lines 21 to 30). -/
def Pc.isRunning : Pc → Bool
  | Pc.whileHead => true
  | Pc.sweepFor _ => true
  | Pc.printNewline => true
  | Pc.flush => true
  | Pc.delay => true
  | _ => false

/-- Pin-configuration calls. -/
def Event.isConfig : Event → Bool
  | Event.pinMode _ _ => true
  | Event.pullUpDnControl _ _ => true
  | _ => false

/-- Digital reads. -/
def Event.isRead : Event → Bool
  | Event.digitalRead _ _ => true
  | _ => false

/-- Calls that write to standard output. -/
def Event.isPrintf : Event → Bool
  | Event.printf _ => true
  | _ => false

/-- Calls of `fflush`. -/
def Event.isFlush : Event → Bool
  | Event.fflush => true
  | _ => false

/-- Calls of `delay`, with any argument. -/
def Event.isDelay : Event → Bool
  | Event.delay _ => true
  | _ => false

/-- The values returned by the `digitalRead` calls of a trace, in call order. -/
def readValues : List Event → List Int
  | [] => []
  | Event.digitalRead _ v :: es => v :: readValues es
  | _ :: es => readValues es

/-- No two adjacent commas. -/
def NoCommaPair (a b : Char) : Prop := ¬ (a = ',' ∧ b = ',')

/-- The calls of the first `j` iterations of the poll loop. -/
def pollEvents (env : Env) (table : List Int) : Nat → List Event
  | 0 => []
  | j + 1 => pollEvents env table j ++ cycleEvents env (j * table.length) table

/-- Program points from which `main` has neither returned nor is about to return. -/
def Pc.isLive : Pc → Bool
  | Pc.return0 => false
  | Pc.exited _ => false
  | _ => true

/-- The four tallies of a trace: reads, flushes, delays of any argument, delays of 100. -/
def tally (t : List Event) : Nat × Nat × Nat × Nat :=
  (t.countP Event.isRead, t.count Event.fflush, t.countP Event.isDelay,
    t.count (Event.delay 100))

/-- The output lines of the first `j` iterations of the poll loop. -/
def pollLines (env : Env) (table : List Int) : Nat → List (List Char)
  | 0 => []
  | j + 1 => pollLines env table j ++ [line (sweepValues env (j * table.length) table)]

/-- The program `main` of `gpio3.c`, run on the channel table `table`: the state reached
`n` steps after process start. -/
def main (env : Env) (table : List Int) (n : Nat) : State := run env table n initial

/-! ## Basic lemmas -/

theorem run_add (env : Env) (table : List Int) (m n : Nat) (s : State) :
    run env table (m + n) s = run env table n (run env table m s) := by
  induction m generalizing s with
  | zero => simp [run]
  | succ m ih => rw [Nat.succ_add]; simp only [run]; exact ih _

theorem run_one (env : Env) (table : List Int) (s : State) :
    run env table 1 s = step env table s := rfl

theorem run_succ_last (env : Env) (table : List Int) (n : Nat) (s : State) :
    run env table (n + 1) s = step env table (run env table n s) := by
  rw [run_add, run_one]

theorem stdout_append (xs ys : List Event) : stdout (xs ++ ys) = stdout xs ++ stdout ys := by
  induction xs with
  | nil => simp [stdout]
  | cons e es ih => cases e <;> simp [stdout, ih]

/-! ### Decimal rendering -/

theorem digitChar_ne (n : Nat) : Nat.digitChar (n % 10) ≠ ',' ∧ Nat.digitChar (n % 10) ≠ '\n' := by
  have h : n % 10 < 10 := Nat.mod_lt _ (by decide)
  interval_cases n % 10 <;> decide

theorem toDigitsCore_ne (fuel : Nat) : ∀ (n : Nat) (ds : List Char),
    (∀ c ∈ ds, c ≠ ',' ∧ c ≠ '\n') →
    ∀ c ∈ Nat.toDigitsCore 10 fuel n ds, c ≠ ',' ∧ c ≠ '\n' := by
  induction fuel with
  | zero => intro n ds h; simpa [Nat.toDigitsCore] using h
  | succ f ih =>
    intro n ds h
    have hcons : ∀ c ∈ Nat.digitChar (n % 10) :: ds, c ≠ ',' ∧ c ≠ '\n' := by
      intro c hc
      rcases List.mem_cons.mp hc with rfl | hc
      · exact digitChar_ne n
      · exact h c hc
    simp only [Nat.toDigitsCore]
    split
    · exact hcons
    · exact ih _ _ hcons

theorem toDigitsCore_length_le (fuel : Nat) : ∀ (n : Nat) (ds : List Char),
    ds.length ≤ (Nat.toDigitsCore 10 fuel n ds).length := by
  induction fuel with
  | zero => intro n ds; simp [Nat.toDigitsCore]
  | succ f ih =>
    intro n ds
    simp only [Nat.toDigitsCore]
    split
    · simp
    · exact le_trans (by simp) (ih _ _)

theorem toDigits_ne_nil (n : Nat) : Nat.toDigits 10 n ≠ [] := by
  intro h
  have h1 := toDigitsCore_length_le n (n / 10) [Nat.digitChar (n % 10)]
  have h2 : (Nat.toDigits 10 n).length = 0 := by rw [h]; rfl
  unfold Nat.toDigits at h2
  simp only [Nat.toDigitsCore] at h2
  split at h2
  · simp at h2
  · simp at h1; omega

theorem fmtD_ne_nil (v : Int) : fmtD v ≠ [] := by
  unfold fmtD
  split
  · simp
  · exact toDigits_ne_nil _

theorem fmtD_clean (v : Int) : ∀ c ∈ fmtD v, c ≠ ',' ∧ c ≠ '\n' := by
  have hd : ∀ c ∈ Nat.toDigits 10 v.natAbs, c ≠ ',' ∧ c ≠ '\n' :=
    toDigitsCore_ne _ _ [] (by simp)
  unfold fmtD
  split
  · intro c hc
    rcases List.mem_cons.mp hc with rfl | hc
    · decide
    · exact hd c hc
  · exact hd

theorem fmtD_zero : fmtD 0 = ['0'] := by decide

theorem fmtD_one : fmtD 1 = ['1'] := by decide

/-! ### The loops of `main` -/

theorem getD_mid (pre : List Int) (c : Int) (cs : List Int) :
    (pre ++ c :: cs).getD pre.length 0 = c := by
  induction pre with
  | nil => rfl
  | cons p ps ih => simpa using ih

theorem step_initFor_lt (env : Env) (pre : List Int) (c : Int) (cs : List Int)
    (tr : List Event) (k : Nat) :
    step env (pre ++ c :: cs) ⟨Pc.initFor pre.length, tr, k⟩
      = ⟨Pc.initFor (pre.length + 1),
          tr ++ [Event.pinMode c WiringPiConst.INPUT,
                 Event.pullUpDnControl c WiringPiConst.PUD_UP], k⟩ := by
  have hlt : (pre.length : Int) < num_valid_channels (pre ++ c :: cs) := by
    simp only [num_valid_channels, List.length_append, List.length_cons]; omega
  simp only [step, hlt, getD_mid, if_true]

theorem step_sweepFor_lt (env : Env) (pre : List Int) (c : Int) (cs : List Int)
    (tr : List Event) (k : Nat) :
    step env (pre ++ c :: cs) ⟨Pc.sweepFor pre.length, tr, k⟩
      = ⟨Pc.sweepFor (pre.length + 1),
          tr ++ [Event.digitalRead c (env.readValue k c),
                 Event.printf (fmtD (env.readValue k c) ++ (if cs = [] then [] else [',']))],
          k + 1⟩ := by
  have hlt : (pre.length : Int) < num_valid_channels (pre ++ c :: cs) := by
    simp only [num_valid_channels, List.length_append, List.length_cons]; omega
  have hsep : ((pre.length : Int) = num_valid_channels (pre ++ c :: cs) - 1) ↔ cs = [] := by
    simp only [num_valid_channels, List.length_append, List.length_cons]
    constructor
    · intro h
      have : cs.length = 0 := by push_cast at h; omega
      exact List.length_eq_zero.mp this
    · rintro rfl; simp
  by_cases hcs : cs = []
  · simp only [step, getD_mid]
    rw [if_pos hlt, if_pos (hsep.mpr hcs), if_pos hcs]
  · have hne : ¬ ((pre.length : Int) = num_valid_channels (pre ++ c :: cs) - 1) :=
      fun h => hcs (hsep.mp h)
    simp only [step, getD_mid]
    rw [if_pos hlt, if_neg hne, if_neg hcs]

theorem step_initFor_end (env : Env) (table : List Int) (tr : List Event) (k : Nat) :
    step env table ⟨Pc.initFor table.length, tr, k⟩ = ⟨Pc.whileHead, tr, k⟩ := by
  simp [step, num_valid_channels]

theorem step_sweepFor_end (env : Env) (table : List Int) (tr : List Event) (k : Nat) :
    step env table ⟨Pc.sweepFor table.length, tr, k⟩ = ⟨Pc.printNewline, tr, k⟩ := by
  simp [step, num_valid_channels]

theorem run_initFor (env : Env) (post : List Int) : ∀ (pre : List Int) (tr : List Event)
    (k : Nat),
    run env (pre ++ post) post.length ⟨Pc.initFor pre.length, tr, k⟩
      = ⟨Pc.initFor (pre ++ post).length, tr ++ configEvents post, k⟩ := by
  induction post with
  | nil => intro pre tr k; simp [run, configEvents]
  | cons c cs ih =>
    intro pre tr k
    have h := ih (pre ++ [c]) (tr ++ [Event.pinMode c WiringPiConst.INPUT,
                 Event.pullUpDnControl c WiringPiConst.PUD_UP]) k
    rw [List.length_cons]
    simp only [run, step_initFor_lt, configEvents]
    simpa using h

theorem run_sweepFor (env : Env) (post : List Int) : ∀ (pre : List Int) (tr : List Event)
    (k : Nat),
    run env (pre ++ post) post.length ⟨Pc.sweepFor pre.length, tr, k⟩
      = ⟨Pc.sweepFor (pre ++ post).length, tr ++ sweepEvents env k post, k + post.length⟩ := by
  induction post with
  | nil => intro pre tr k; simp [run, sweepEvents]
  | cons c cs ih =>
    intro pre tr k
    have h := ih (pre ++ [c]) (tr ++ [Event.digitalRead c (env.readValue k c),
      Event.printf (fmtD (env.readValue k c) ++ (if cs = [] then [] else [',']))]) (k + 1)
    rw [List.length_cons]
    simp only [run, step_sweepFor_lt, sweepEvents]
    have hk : k + 1 + cs.length = k + (cs.length + 1) := by omega
    rw [hk] at h
    simpa using h

/-- From entry, a successful setup followed by the initialisation loop reaches the first
test of `while (1)` having issued exactly the setup call and the pin configuration. -/
theorem run_init (env : Env) (table : List Int) (h : env.setupResult ≠ -1) :
    run env table (initSteps table) initial
      = ⟨Pc.whileHead, Event.wiringPiSetup env.setupResult :: configEvents table, 0⟩ := by
  have h1 : run env table 1 initial
      = ⟨Pc.initFor 0, [Event.wiringPiSetup env.setupResult], 0⟩ := by
    simp [run, step, initial, h]
  have h2 := run_initFor env table [] [Event.wiringPiSetup env.setupResult] 0
  simp only [List.nil_append, List.length_nil] at h2
  have hs : initSteps table = 1 + table.length + 1 := by unfold initSteps; omega
  rw [hs, run_add, run_add, h1, h2, run_one, step_initFor_end]
  simp

/-- One iteration of the poll loop, from one test of `while (1)` to the next. -/
theorem run_cycle (env : Env) (table : List Int) (tr : List Event) (k : Nat) :
    run env table (cycleSteps table) ⟨Pc.whileHead, tr, k⟩
      = ⟨Pc.whileHead, tr ++ cycleEvents env k table, k + table.length⟩ := by
  have h1 : run env table 1 ⟨Pc.whileHead, tr, k⟩ = ⟨Pc.sweepFor 0, tr, k⟩ := by
    simp [run, step]
  have h2 := run_sweepFor env table [] tr k
  simp only [List.nil_append, List.length_nil] at h2
  have hs : cycleSteps table = 1 + table.length + 1 + 3 := by unfold cycleSteps; omega
  rw [hs, run_add, run_add, run_add, h1, h2, run_one, step_sweepFor_end]
  simp [run, step, cycleEvents]

/-- After a successful setup, the `j`-th test of `while (1)` is reached with exactly the
setup call, the pin configuration and `j` complete iterations in the trace. -/
theorem run_cycles (env : Env) (table : List Int) (h : env.setupResult ≠ -1) (j : Nat) :
    run env table (initSteps table + j * cycleSteps table) initial
      = ⟨Pc.whileHead,
          Event.wiringPiSetup env.setupResult :: configEvents table ++ pollEvents env table j,
          j * table.length⟩ := by
  induction j with
  | zero => simp [run_init env table h, pollEvents]
  | succ j ih =>
    have hs : initSteps table + (j + 1) * cycleSteps table
        = (initSteps table + j * cycleSteps table) + cycleSteps table := by ring
    rw [hs, run_add, ih, run_cycle]
    simp [pollEvents, Nat.succ_mul]

/-! ### Invariants of `step` -/

theorem step_isRunning (env : Env) (table : List Int) (s : State) (h : s.pc.isRunning = true) :
    (step env table s).pc.isRunning = true := by
  obtain ⟨pc, tr, k⟩ := s
  cases pc with
  | whileHead => simp [step, Pc.isRunning]
  | sweepFor i =>
    by_cases hlt : (i : Int) < num_valid_channels table
    · simp only [step, if_pos hlt, Pc.isRunning]
    · simp only [step, if_neg hlt, Pc.isRunning]
  | printNewline => simp [step, Pc.isRunning]
  | flush => simp [step, Pc.isRunning]
  | delay => simp [step, Pc.isRunning]
  | entry => simp [Pc.isRunning] at h
  | initFor i => simp [Pc.isRunning] at h
  | return0 => simp [Pc.isRunning] at h
  | exited c => simp [Pc.isRunning] at h

theorem step_trace_running (env : Env) (table : List Int) (s : State)
    (h : s.pc.isRunning = true) :
    ∃ es, (step env table s).trace = s.trace ++ es ∧ ∀ e ∈ es, e.isConfig = false := by
  obtain ⟨pc, tr, k⟩ := s
  cases pc with
  | whileHead => exact ⟨[], by simp [step], by simp⟩
  | sweepFor i =>
    by_cases hlt : (i : Int) < num_valid_channels table
    · simp only [step, if_pos hlt]
      exact ⟨_, rfl, by simp [Event.isConfig]⟩
    · exact ⟨[], by simp only [step, if_neg hlt, List.append_nil], by simp⟩
  | printNewline => simp only [step]; exact ⟨_, rfl, by simp [Event.isConfig]⟩
  | flush => simp only [step]; exact ⟨_, rfl, by simp [Event.isConfig]⟩
  | delay => simp only [step]; exact ⟨_, rfl, by simp [Event.isConfig]⟩
  | entry => simp [Pc.isRunning] at h
  | initFor i => simp [Pc.isRunning] at h
  | return0 => simp [Pc.isRunning] at h
  | exited c => simp [Pc.isRunning] at h

theorem run_running (env : Env) (table : List Int) (n : Nat) : ∀ (s : State),
    s.pc.isRunning = true →
    (run env table n s).pc.isRunning = true ∧
      ∃ rest, (run env table n s).trace = s.trace ++ rest ∧ ∀ e ∈ rest, e.isConfig = false := by
  induction n with
  | zero => intro s h; exact ⟨h, [], by simp [run], by simp⟩
  | succ n ih =>
    intro s h
    obtain ⟨es, hes, hcfg⟩ := step_trace_running env table s h
    obtain ⟨hr, rest, hrest, hcfg2⟩ := ih (step env table s) (step_isRunning env table s h)
    refine ⟨hr, es ++ rest, ?_, ?_⟩
    · simp only [run]; rw [hrest, hes, List.append_assoc]
    · intro e he
      rcases List.mem_append.mp he with he | he
      · exact hcfg e he
      · exact hcfg2 e he

theorem step_trace_extends (env : Env) (table : List Int) (s : State) :
    s.trace <+: (step env table s).trace := by
  obtain ⟨pc, tr, k⟩ := s
  cases pc <;> simp only [step] <;>
    first
      | exact List.prefix_append _ _
      | exact List.prefix_refl _
      | (split <;> first | exact List.prefix_append _ _ | exact List.prefix_refl _)

theorem run_trace_extends (env : Env) (table : List Int) (n : Nat) : ∀ (s : State),
    s.trace <+: (run env table n s).trace := by
  induction n with
  | zero => intro s; exact List.prefix_refl _
  | succ n ih => intro s; exact (step_trace_extends env table s).trans (ih _)

theorem step_isLive (env : Env) (table : List Int) (hs : env.setupResult ≠ -1) (s : State)
    (h : s.pc.isLive = true) : (step env table s).pc.isLive = true := by
  obtain ⟨pc, tr, k⟩ := s
  cases pc with
  | entry => simp only [step, if_neg hs, Pc.isLive]
  | initFor i =>
    by_cases hlt : (i : Int) < num_valid_channels table
    · simp only [step, if_pos hlt, Pc.isLive]
    · simp only [step, if_neg hlt, Pc.isLive]
  | whileHead => simp [step, Pc.isLive]
  | sweepFor i =>
    by_cases hlt : (i : Int) < num_valid_channels table
    · simp only [step, if_pos hlt, Pc.isLive]
    · simp only [step, if_neg hlt, Pc.isLive]
  | printNewline => simp [step, Pc.isLive]
  | flush => simp [step, Pc.isLive]
  | delay => simp [step, Pc.isLive]
  | return0 => simp [Pc.isLive] at h
  | exited c => simp [Pc.isLive] at h

theorem run_isLive (env : Env) (table : List Int) (hs : env.setupResult ≠ -1) (n : Nat) :
    ∀ (s : State), s.pc.isLive = true → (run env table n s).pc.isLive = true := by
  induction n with
  | zero => intro s h; exact h
  | succ n ih => intro s h; exact ih _ (step_isLive env table hs s h)

theorem step_delay_arg (env : Env) (table : List Int) (s : State)
    (h : ∀ ms, Event.delay ms ∈ s.trace → ms = 100) :
    ∀ ms, Event.delay ms ∈ (step env table s).trace → ms = 100 := by
  obtain ⟨pc, tr, k⟩ := s
  have key : ∀ (es : List Event), (∀ ms, Event.delay ms ∈ es → ms = 100) →
      ∀ ms, Event.delay ms ∈ tr ++ es → ms = 100 := by
    intro es hes ms hm
    rcases List.mem_append.mp hm with hm | hm
    · exact h ms hm
    · exact hes ms hm
  cases pc with
  | entry =>
    by_cases hr : env.setupResult = -1
    · simp only [step, if_pos hr]; exact key _ (by simp)
    · simp only [step, if_neg hr]; exact key _ (by simp)
  | initFor i =>
    by_cases hlt : (i : Int) < num_valid_channels table
    · simp only [step, if_pos hlt]; exact key _ (by simp)
    · simp only [step, if_neg hlt]; exact h
  | whileHead => simpa [step] using h
  | sweepFor i =>
    by_cases hlt : (i : Int) < num_valid_channels table
    · simp only [step, if_pos hlt]; exact key _ (by simp)
    · simp only [step, if_neg hlt]; exact h
  | printNewline => simp only [step]; exact key _ (by simp)
  | flush => simp only [step]; exact key _ (by simp)
  | delay => simp only [step]; exact key _ (by simp)
  | return0 => simpa [step] using h
  | exited c => simpa [step] using h

theorem run_delay_arg (env : Env) (table : List Int) (n : Nat) : ∀ (s : State),
    (∀ ms, Event.delay ms ∈ s.trace → ms = 100) →
    ∀ ms, Event.delay ms ∈ (run env table n s).trace → ms = 100 := by
  induction n with
  | zero => intro s h; exact h
  | succ n ih => intro s h; exact ih _ (step_delay_arg env table s h)

/-! ### What one iteration adds to the trace and to standard output -/

theorem issued_cycle (env : Env) (table : List Int) (tr : List Event) (k : Nat) :
    issued env table (cycleSteps table) ⟨Pc.whileHead, tr, k⟩ = cycleEvents env k table := by
  simp [issued, run_cycle]

theorem readValues_append (xs ys : List Event) :
    readValues (xs ++ ys) = readValues xs ++ readValues ys := by
  induction xs with
  | nil => simp [readValues]
  | cons e es ih => cases e <;> simp [readValues, ih]

theorem readValues_sweepEvents (env : Env) (cs : List Int) : ∀ k,
    readValues (sweepEvents env k cs) = sweepValues env k cs := by
  induction cs with
  | nil => intro k; rfl
  | cons c cs ih => intro k; simp [sweepEvents, sweepValues, readValues, ih]

theorem readValues_cycleEvents (env : Env) (k : Nat) (table : List Int) :
    readValues (cycleEvents env k table) = sweepValues env k table := by
  simp [cycleEvents, readValues_append, readValues_sweepEvents, readValues]

theorem sweepValues_length (env : Env) (cs : List Int) : ∀ k,
    (sweepValues env k cs).length = cs.length := by
  induction cs with
  | nil => intro k; rfl
  | cons c cs ih => intro k; simp [sweepValues, ih]

theorem intercalate_one (sep x : List Char) : List.intercalate sep [x] = x := by
  simp [List.intercalate]

theorem intercalate_two (sep x y : List Char) (ys : List (List Char)) :
    List.intercalate sep (x :: y :: ys) = x ++ sep ++ List.intercalate sep (y :: ys) := by
  simp [List.intercalate]

theorem stdout_sweepEvents (env : Env) (cs : List Int) : ∀ k,
    stdout (sweepEvents env k cs)
      = List.intercalate [','] ((sweepValues env k cs).map fmtD) := by
  induction cs with
  | nil => intro k; simp [sweepEvents, sweepValues, stdout, List.intercalate]
  | cons c cs ih =>
    intro k
    cases cs with
    | nil => simp [sweepEvents, sweepValues, stdout, intercalate_one]
    | cons d ds =>
      have h := ih (k + 1)
      simp only [sweepValues, List.map_cons] at h
      simp only [sweepEvents, sweepValues, stdout, List.map_cons, intercalate_two] at h ⊢
      rw [h]
      simp

theorem stdout_cycleEvents (env : Env) (k : Nat) (table : List Int) :
    stdout (cycleEvents env k table) = line (sweepValues env k table) := by
  simp [cycleEvents, stdout_append, stdout_sweepEvents, stdout, line]

theorem emitted_cycle (env : Env) (table : List Int) (tr : List Event) (k : Nat) :
    emitted env table (cycleSteps table) ⟨Pc.whileHead, tr, k⟩
      = line (sweepValues env k table) := by
  simp [emitted, run_cycle, stdout_append, stdout_cycleEvents]

/-! ## The claims -/

/-- C1: for any state at the test of `while (1)` (by `run_cycles`, `main` is in such a state
at the start of each iteration), any channel table and any values `vs` returned by the reads
of the iteration, the bytes written to standard output by that iteration are exactly
the decimal renderings of the values returned by that iteration's reads, joined by single
commas and followed by one newline; the iteration ends at the next test of `while (1)`.
In particular table `{0,2,3}` with reads `(1,0,1)` gives `"1,0,1\n"`, and the program's
table with nine reads of 0 gives `"0,0,0,0,0,0,0,0,0\n"`. -/
theorem sweep_output_is_joined_line (env : Env) (table : List Int) (tr : List Event) (k : Nat)
    (vs : List Int)
    (hvs : readValues (issued env table (cycleSteps table) ⟨Pc.whileHead, tr, k⟩) = vs) :
    (run env table (cycleSteps table) ⟨Pc.whileHead, tr, k⟩).pc = Pc.whileHead ∧
    emitted env table (cycleSteps table) ⟨Pc.whileHead, tr, k⟩
      = List.intercalate [','] (vs.map fmtD) ++ ['\n'] ∧
    (table = [0, 2, 3] → vs = [1, 0, 1] →
      emitted env table (cycleSteps table) ⟨Pc.whileHead, tr, k⟩ = "1,0,1\n".data) ∧
    (table = valid_channels → vs = [0, 0, 0, 0, 0, 0, 0, 0, 0] →
      emitted env table (cycleSteps table) ⟨Pc.whileHead, tr, k⟩
        = "0,0,0,0,0,0,0,0,0\n".data) := by
  rw [issued_cycle, readValues_cycleEvents] at hvs
  have hline : emitted env table (cycleSteps table) ⟨Pc.whileHead, tr, k⟩
      = List.intercalate [','] (vs.map fmtD) ++ ['\n'] := by
    rw [emitted_cycle, hvs, line]
  refine ⟨by rw [run_cycle], hline, ?_, ?_⟩
  · intro _ h; rw [hline, h]; decide
  · intro _ h; rw [hline, h]; decide

/-- Witness for C1: the two sweeps named by the claim, run on the machine. -/
theorem sweep_output_is_joined_line_witness :
    emitted ⟨0, fun k _ => [1, 0, 1].getD k 0⟩ [0, 2, 3] (cycleSteps [0, 2, 3])
        ⟨Pc.whileHead, [], 0⟩ = "1,0,1\n".data ∧
    emitted ⟨0, fun _ _ => 0⟩ valid_channels (cycleSteps valid_channels)
        ⟨Pc.whileHead, [], 0⟩ = "0,0,0,0,0,0,0,0,0\n".data :=
  ⟨(sweep_output_is_joined_line ⟨0, fun k _ => [1, 0, 1].getD k 0⟩ [0, 2, 3] [] 0 [1, 0, 1]
      (by decide)).2.2.1 rfl rfl,
   (sweep_output_is_joined_line ⟨0, fun _ _ => 0⟩ valid_channels [] 0
      [0, 0, 0, 0, 0, 0, 0, 0, 0] (by decide)).2.2.2 rfl rfl⟩

/-! ### Shape of a comma-joined line -/

theorem clean_chain (t : List Char) (h : ∀ c ∈ t, c ≠ ',') : List.Chain' NoCommaPair t := by
  induction t with
  | nil => exact List.chain'_nil
  | cons a l ih =>
    rw [List.chain'_cons']
    refine ⟨?_, ih (fun c hc => h c (List.mem_cons_of_mem _ hc))⟩
    intro y _ hy
    exact h a (List.mem_cons_self _ _) hy.1

theorem head_ne_comma (t : List Char) (h : ∀ c ∈ t, c ≠ ',') (l : List Char) :
    t ≠ [] → (t ++ l).head? ≠ some ',' := by
  cases t with
  | nil => intro h0; exact absurd rfl h0
  | cons a as =>
    intro _ heq
    simp only [List.cons_append, List.head?_cons, Option.some.injEq] at heq
    exact h a (List.mem_cons_self _ _) heq

theorem getLast_ne_comma (t : List Char) (h : ∀ c ∈ t, c ≠ ',') :
    t.getLast? ≠ some ',' := by
  intro heq
  exact h ',' (List.mem_of_getLast?_eq_some heq) rfl

/-- Tokens that are non-empty and free of commas, joined by single commas: the result does
not start or end with a comma, has no two adjacent commas, and is empty only when there is
no token. -/
theorem joined_shape (toks : List (List Char)) :
    (∀ t ∈ toks, t ≠ [] ∧ ∀ c ∈ t, c ≠ ',') →
    (List.intercalate [','] toks).head? ≠ some ',' ∧
    (List.intercalate [','] toks).getLast? ≠ some ',' ∧
    List.Chain' NoCommaPair (List.intercalate [','] toks) ∧
    (toks ≠ [] → List.intercalate [','] toks ≠ []) := by
  induction toks with
  | nil => intro _; simp [List.intercalate]
  | cons t ts ih =>
    intro h
    have ht := h t (List.mem_cons_self _ _)
    cases ts with
    | nil =>
      rw [intercalate_one]
      refine ⟨?_, getLast_ne_comma t ht.2, clean_chain t ht.2, fun _ => ht.1⟩
      have := head_ne_comma t ht.2 [] ht.1
      simpa using this
    | cons u us =>
      have ih2 := ih (fun x hx => h x (List.mem_cons_of_mem _ hx))
      obtain ⟨ihh, ihl, ihc, ihn⟩ := ih2
      have hne : List.intercalate [','] (u :: us) ≠ [] := ihn (by simp)
      rw [intercalate_two, List.append_assoc]
      refine ⟨head_ne_comma t ht.2 _ ht.1, ?_, ?_, ?_⟩
      · rw [List.getLast?_append_of_ne_nil _ (by simp)]
        obtain ⟨y, ys, hy⟩ := List.exists_cons_of_ne_nil hne
        rw [List.singleton_append, hy, List.getLast?_cons_cons, ← hy]
        exact ihl
      · rw [List.chain'_append]
        refine ⟨clean_chain t ht.2, ?_, ?_⟩
        · rw [List.singleton_append, List.chain'_cons']
          refine ⟨?_, ihc⟩
          intro y hy hp
          exact ihh (by rw [hp.2] at hy; exact hy)
        · intro x hx y _ hp
          exact ht.2 x (List.mem_of_mem_getLast? hx) hp.1
      · intro _; simp

theorem joined_no_newline (toks : List (List Char))
    (h : ∀ t ∈ toks, ∀ c ∈ t, c ≠ '\n') : '\n' ∉ List.intercalate [','] toks := by
  induction toks with
  | nil => simp [List.intercalate]
  | cons t ts ih =>
    cases ts with
    | nil =>
      rw [intercalate_one]
      intro hm; exact h t (List.mem_cons_self _ _) _ hm rfl
    | cons u us =>
      rw [intercalate_two]
      intro hm
      rcases List.mem_append.mp hm with hm | hm
      · rcases List.mem_append.mp hm with hm | hm
        · exact h t (List.mem_cons_self _ _) _ hm rfl
        · simp at hm
      · exact ih (fun x hx => h x (List.mem_cons_of_mem _ hx)) hm

theorem tokens_wellformed (vs : List Int) :
    ∀ t ∈ vs.map fmtD, t ≠ [] ∧ ∀ c ∈ t, c ≠ ',' := by
  intro t ht
  obtain ⟨v, _, rfl⟩ := List.mem_map.mp ht
  exact ⟨fmtD_ne_nil v, fun c hc => (fmtD_clean v c hc).1⟩

theorem tokens_no_newline (vs : List Int) : ∀ t ∈ vs.map fmtD, ∀ c ∈ t, c ≠ '\n' := by
  intro t ht c hc
  obtain ⟨v, _, rfl⟩ := List.mem_map.mp ht
  exact (fmtD_clean v c hc).2

theorem line_dropLast (vs : List Int) :
    (line vs).dropLast = List.intercalate [','] (vs.map fmtD) := by
  simp [line, List.dropLast_concat]

theorem line_getLast (vs : List Int) : (line vs).getLast? = some '\n' := by
  simp [line]

theorem line_count_newline (vs : List Int) : (line vs).count '\n' = 1 := by
  have h := joined_no_newline (vs.map fmtD) (tokens_no_newline vs)
  simp [line, List.count_append, List.count_eq_zero_of_not_mem h]

/-! ### Positions within one sweep -/

theorem sweepValues_at (env : Env) (cs : List Int) : ∀ (k i : Nat), i < cs.length →
    (sweepValues env k cs)[i]? = some (env.readValue (k + i) (cs.getD i 0)) := by
  induction cs with
  | nil => intro k i h; simp at h
  | cons c cs ih =>
    intro k i h
    cases i with
    | zero => simp [sweepValues]
    | succ i =>
      have h2 := ih (k + 1) i (by simpa using h)
      have hk : k + 1 + i = k + (i + 1) := by omega
      rw [hk] at h2
      simpa [sweepValues] using h2

theorem sweepReads_at (env : Env) (cs : List Int) : ∀ (k i : Nat), i < cs.length →
    ((sweepEvents env k cs).filter Event.isRead)[i]?
      = some (Event.digitalRead (cs.getD i 0) (env.readValue (k + i) (cs.getD i 0))) := by
  induction cs with
  | nil => intro k i h; simp at h
  | cons c cs ih =>
    intro k i h
    cases i with
    | zero => simp [sweepEvents, Event.isRead]
    | succ i =>
      have h2 := ih (k + 1) i (by simpa using h)
      have hk : k + 1 + i = k + (i + 1) := by omega
      rw [hk] at h2
      simpa [sweepEvents, Event.isRead] using h2

theorem cycleReads (env : Env) (k : Nat) (table : List Int) :
    (cycleEvents env k table).filter Event.isRead
      = (sweepEvents env k table).filter Event.isRead := by
  simp [cycleEvents, Event.isRead]

/-! ### Standard output after whole iterations -/

theorem stdout_configEvents (cs : List Int) : stdout (configEvents cs) = [] := by
  induction cs with
  | nil => rfl
  | cons c cs ih => simp [configEvents, stdout, ih]

theorem stdout_after_cycles (env : Env) (table : List Int) (h : env.setupResult ≠ -1)
    (j : Nat) :
    stdout (run env table (initSteps table + j * cycleSteps table) initial).trace
      = stdout (pollEvents env table j) := by
  rw [run_cycles env table h]
  simp [stdout, stdout_append, stdout_configEvents]

theorem stdout_pollEvents_count (env : Env) (table : List Int) (j : Nat) :
    (stdout (pollEvents env table j)).count '\n' = j := by
  induction j with
  | zero => simp [pollEvents, stdout]
  | succ j ih =>
    simp [pollEvents, stdout_append, stdout_cycleEvents, List.count_append, ih,
      line_count_newline]

theorem stdout_pollEvents_getLast (env : Env) (table : List Int) (j : Nat) :
    (stdout (pollEvents env table (j + 1))).getLast? = some '\n' := by
  simp only [pollEvents, stdout_append, stdout_cycleEvents]
  rw [List.getLast?_append_of_ne_nil _ (by simp [line])]
  exact line_getLast _

theorem stdout_pollEvents_lines (env : Env) (table : List Int) (j : Nat) :
    stdout (pollEvents env table j) = (pollLines env table j).flatten := by
  induction j with
  | zero => rfl
  | succ j ih => simp [pollEvents, pollLines, stdout_append, stdout_cycleEvents, ih]

theorem pollLines_length (env : Env) (table : List Int) (j : Nat) :
    (pollLines env table j).length = j := by
  induction j with
  | zero => rfl
  | succ j ih => simp [pollLines, ih]

theorem pollLines_shape (env : Env) (table : List Int) (j : Nat) :
    ∀ l ∈ pollLines env table j, l.getLast? = some '\n' ∧ l.count '\n' = 1 := by
  induction j with
  | zero => intro l hl; simp [pollLines] at hl
  | succ j ih =>
    intro l hl
    simp only [pollLines, List.mem_append, List.mem_singleton] at hl
    rcases hl with hl | rfl
    · exact ih l hl
    · exact ⟨line_getLast _, line_count_newline _⟩

/-! ## The claims, continued -/

/-- C2: for a non-empty channel table of length `N` and a sweep whose reads all return 0 or
1, splitting the emitted line (its final newline removed) on `','` yields exactly `N` tokens,
every token is `"0"` or `"1"`, and for every `i < N` the `i`-th read of the sweep is the read
of the `i`-th channel of the table and the `i`-th token is the rendering of the value it
returned. -/
theorem tokens_match_channels (env : Env) (table : List Int) (tr : List Event) (k : Nat)
    (hne : table ≠ [])
    (hbin : ∀ v ∈ readValues (issued env table (cycleSteps table) ⟨Pc.whileHead, tr, k⟩),
      v = 0 ∨ v = 1) :
    ((emitted env table (cycleSteps table) ⟨Pc.whileHead, tr, k⟩).dropLast.splitOn ',').length
      = table.length ∧
    (∀ t ∈ (emitted env table (cycleSteps table) ⟨Pc.whileHead, tr, k⟩).dropLast.splitOn ',',
      t = ['0'] ∨ t = ['1']) ∧
    ∀ i, i < table.length →
      ((issued env table (cycleSteps table) ⟨Pc.whileHead, tr, k⟩).filter Event.isRead)[i]?
        = some (Event.digitalRead (table.getD i 0) (env.readValue (k + i) (table.getD i 0))) ∧
      ((emitted env table (cycleSteps table) ⟨Pc.whileHead, tr, k⟩).dropLast.splitOn ',')[i]?
        = some (fmtD (env.readValue (k + i) (table.getD i 0))) := by
  rw [issued_cycle, readValues_cycleEvents] at hbin
  have hnil : (sweepValues env k table).map fmtD ≠ [] := by
    intro h0
    have hl := congrArg List.length h0
    simp only [List.length_map, sweepValues_length, List.length_nil] at hl
    exact hne (List.length_eq_zero.mp hl)
  have hsplit : (emitted env table (cycleSteps table) ⟨Pc.whileHead, tr, k⟩).dropLast.splitOn ','
      = (sweepValues env k table).map fmtD := by
    rw [emitted_cycle, line_dropLast]
    exact List.splitOn_intercalate _ ','
      (fun l hl hc => ((tokens_wellformed _ l hl).2 ',' hc) rfl) hnil
  rw [hsplit, issued_cycle, cycleReads]
  refine ⟨by simp [sweepValues_length], ?_, ?_⟩
  · intro t ht
    obtain ⟨v, hv, rfl⟩ := List.mem_map.mp ht
    rcases hbin v hv with rfl | rfl
    · exact Or.inl fmtD_zero
    · exact Or.inr fmtD_one
  · intro i hi
    refine ⟨sweepReads_at env table k i hi, ?_⟩
    rw [List.getElem?_map, sweepValues_at env table k i hi]
    rfl

/-- Witness for C2: table `{0,2,3}` with reads `(1,0,1)`. -/
theorem tokens_match_channels_witness :
    ((emitted ⟨0, fun k _ => [1, 0, 1].getD k 0⟩ [0, 2, 3] (cycleSteps [0, 2, 3])
        ⟨Pc.whileHead, [], 0⟩).dropLast.splitOn ',').length = 3 ∧
    (emitted ⟨0, fun k _ => [1, 0, 1].getD k 0⟩ [0, 2, 3] (cycleSteps [0, 2, 3])
        ⟨Pc.whileHead, [], 0⟩).dropLast.splitOn ',' = [['1'], ['0'], ['1']] :=
  ⟨(tokens_match_channels ⟨0, fun k _ => [1, 0, 1].getD k 0⟩ [0, 2, 3] [] 0 (by decide)
      (by decide)).1,
   by decide⟩

/-- C3: for every channel table and whatever the reads return, the line emitted by one
iteration of the poll loop does not start with a comma, the character before its
terminating newline is not a comma, and it contains no two adjacent commas. -/
theorem line_has_no_stray_comma (env : Env) (table : List Int) (tr : List Event) (k : Nat) :
    (emitted env table (cycleSteps table) ⟨Pc.whileHead, tr, k⟩).head? ≠ some ',' ∧
    (emitted env table (cycleSteps table) ⟨Pc.whileHead, tr, k⟩).dropLast.getLast? ≠ some ',' ∧
    ¬ [',', ','] <:+: emitted env table (cycleSteps table) ⟨Pc.whileHead, tr, k⟩ := by
  rw [emitted_cycle]
  obtain ⟨hh, hl, hc, _⟩ :=
    joined_shape ((sweepValues env k table).map fmtD) (tokens_wellformed _)
  refine ⟨?_, by rw [line_dropLast]; exact hl, ?_⟩
  · unfold line
    cases hb : List.intercalate [','] ((sweepValues env k table).map fmtD) with
    | nil => simp
    | cons a as =>
      rw [hb] at hh
      simpa using hh
  · intro hinf
    have hchain : List.Chain' NoCommaPair (line (sweepValues env k table)) := by
      unfold line
      rw [List.chain'_append]
      refine ⟨hc, List.chain'_singleton _, ?_⟩
      intro x _ y hy hp
      simp only [List.head?_cons, Option.mem_def, Option.some.injEq] at hy
      rw [← hy] at hp
      exact absurd hp.2 (by decide)
    have h2 : List.Chain' NoCommaPair [',', ','] := hchain.infix hinf
    rw [List.chain'_pair] at h2
    exact h2 ⟨rfl, rfl⟩

/-- C4: the output of one iteration ends with a newline and contains exactly one newline.
Hence, once setup has succeeded, the output after `j` completed iterations is the
concatenation of `j` lines, each ending with a newline and containing exactly one; it
contains exactly `j` newlines and, being non-empty when `j ≥ 1`, ends with a newline. -/
theorem one_newline_per_iteration (env : Env) (table : List Int) :
    (∀ (tr : List Event) (k : Nat),
      (emitted env table (cycleSteps table) ⟨Pc.whileHead, tr, k⟩).getLast? = some '\n' ∧
      (emitted env table (cycleSteps table) ⟨Pc.whileHead, tr, k⟩).count '\n' = 1) ∧
    (env.setupResult ≠ -1 → ∀ j : Nat,
      stdout (main env table (initSteps table + j * cycleSteps table)).trace
        = (pollLines env table j).flatten ∧
      (pollLines env table j).length = j ∧
      (∀ l ∈ pollLines env table j, l.getLast? = some '\n' ∧ l.count '\n' = 1) ∧
      (stdout (main env table (initSteps table + j * cycleSteps table)).trace).count
        '\n' = j ∧
      (0 < j →
        (stdout (main env table (initSteps table + j * cycleSteps table)).trace).getLast?
          = some '\n')) := by
  refine ⟨fun tr k => ?_, fun h j => ?_⟩
  · rw [emitted_cycle]
    exact ⟨line_getLast _, line_count_newline _⟩
  · unfold main
    rw [stdout_after_cycles env table h]
    refine ⟨stdout_pollEvents_lines env table j, pollLines_length env table j,
      pollLines_shape env table j, stdout_pollEvents_count env table j, fun hj => ?_⟩
    obtain ⟨j, rfl⟩ := Nat.exists_eq_succ_of_ne_zero (Nat.pos_iff_ne_zero.mp hj)
    exact stdout_pollEvents_getLast env table j

/-- Witness for C4: the program's own table, all reads 0, after two iterations. -/
theorem one_newline_per_iteration_witness :
    stdout (main ⟨0, fun _ _ => 0⟩ valid_channels
      (initSteps valid_channels + 2 * cycleSteps valid_channels)).trace
        = "0,0,0,0,0,0,0,0,0\n0,0,0,0,0,0,0,0,0\n".data ∧
    (stdout (main ⟨0, fun _ _ => 0⟩ valid_channels
      (initSteps valid_channels + 2 * cycleSteps valid_channels)).trace).count '\n' = 2 ∧
    (stdout (main ⟨0, fun _ _ => 0⟩ valid_channels
      (initSteps valid_channels + 2 * cycleSteps valid_channels)).trace).getLast?
        = some '\n' :=
  ⟨by decide,
   ((one_newline_per_iteration ⟨0, fun _ _ => 0⟩ valid_channels).2 (by decide) 2).2.2.2.1,
   ((one_newline_per_iteration ⟨0, fun _ _ => 0⟩ valid_channels).2 (by decide) 2).2.2.2.2
     (by decide)⟩

/-! ### Termination and the failure path -/

theorem run_exited (env : Env) (table : List Int) (n : Nat) (c : Int) (tr : List Event)
    (k : Nat) : run env table n ⟨Pc.exited c, tr, k⟩ = ⟨Pc.exited c, tr, k⟩ := by
  induction n with
  | zero => rfl
  | succ n ih => simpa [run, step] using ih

theorem run_setup_failed (env : Env) (table : List Int) (h : env.setupResult = -1) (n : Nat) :
    run env table (n + 1) initial = ⟨Pc.exited 1, [Event.wiringPiSetup (-1)], 0⟩ := by
  have h1 : step env table initial = ⟨Pc.exited 1, [Event.wiringPiSetup (-1)], 0⟩ := by
    simp [step, initial, h]
  simp only [run, h1, run_exited]

theorem initial_isLive : initial.pc.isLive = true := rfl

/-- C5: if `wiringPiSetup()` returns -1, `main` returns with status 1 at its first step and
stays there; the only call ever made is the setup call itself, so standard output is empty
and no pin-mode, pull-up, read, flush or delay call occurs. Conversely `main` returns in no
other way: whenever a reachable state has returned, setup had failed and the status is 1. -/
theorem setup_failure_aborts (env : Env) (table : List Int) :
    (env.setupResult = -1 → ∀ n : Nat,
      main env table (n + 1) = ⟨Pc.exited 1, [Event.wiringPiSetup (-1)], 0⟩ ∧
      step env table (main env table (n + 1)) = main env table (n + 1) ∧
      stdout (main env table (n + 1)).trace = [] ∧
      ∀ e ∈ (main env table (n + 1)).trace,
        e.isConfig = false ∧ e.isRead = false ∧ e.isPrintf = false ∧ e.isFlush = false ∧
          e.isDelay = false) ∧
    (∀ (n : Nat) (status : Int), (main env table n).pc = Pc.exited status →
      env.setupResult = -1 ∧ status = 1) := by
  unfold main
  constructor
  · intro h n
    rw [run_setup_failed env table h n]
    refine ⟨rfl, by simp [step], by simp [stdout], ?_⟩
    intro e he
    simp only [List.mem_singleton] at he
    subst he
    simp [Event.isConfig, Event.isRead, Event.isPrintf, Event.isFlush, Event.isDelay]
  · intro n status hpc
    by_cases h : env.setupResult = -1
    · refine ⟨h, ?_⟩
      cases n with
      | zero => simp [run, initial] at hpc
      | succ n =>
        rw [run_setup_failed env table h n] at hpc
        simp only [Pc.exited.injEq] at hpc
        exact hpc.symm
    · have hl := run_isLive env table h n initial initial_isLive
      rw [hpc] at hl
      simp [Pc.isLive] at hl

/-- Witness for C5: setup fails for the program's own table. -/
theorem setup_failure_aborts_witness :
    main ⟨-1, fun _ _ => 0⟩ valid_channels 1
        = ⟨Pc.exited 1, [Event.wiringPiSetup (-1)], 0⟩ ∧
    stdout (main ⟨-1, fun _ _ => 0⟩ valid_channels 1).trace = [] ∧
    ((-1 : Int) = -1 ∧ (1 : Int) = 1) :=
  ⟨((setup_failure_aborts ⟨-1, fun _ _ => 0⟩ valid_channels).1 rfl 0).1,
   ((setup_failure_aborts ⟨-1, fun _ _ => 0⟩ valid_channels).1 rfl 0).2.2.1,
   (setup_failure_aborts ⟨-1, fun _ _ => 0⟩ valid_channels).2 1 1 (by decide)⟩

/-! ### The empty table -/

theorem stdout_pollEvents_nil (env : Env) (j : Nat) :
    stdout (pollEvents env [] j) = List.replicate j '\n' := by
  induction j with
  | zero => rfl
  | succ j ih =>
    simp only [pollEvents, stdout_append, ih]
    simp [cycleEvents, sweepEvents, stdout, List.replicate_succ']

/-- C6: with an empty channel table and a successful setup, initialisation issues no pin
configuration; every iteration of the poll loop makes no read, writes exactly a newline,
flushes and calls `delay(100)`, and returns to the loop test; the program keeps running, and
after `j` iterations the output is `j` bare newlines with no read made. -/
theorem empty_table_emits_bare_newlines (env : Env) (h : env.setupResult ≠ -1) :
    main env [] (initSteps [])
      = ⟨Pc.whileHead, [Event.wiringPiSetup env.setupResult], 0⟩ ∧
    (∀ (tr : List Event) (k : Nat),
      run env [] (cycleSteps []) ⟨Pc.whileHead, tr, k⟩
        = ⟨Pc.whileHead, tr ++ [Event.printf ['\n'], Event.fflush, Event.delay 100], k⟩ ∧
      emitted env [] (cycleSteps []) ⟨Pc.whileHead, tr, k⟩ = ['\n']) ∧
    (∀ n : Nat, (main env [] n).pc.isLive = true) ∧
    (∀ j : Nat,
      (main env [] (initSteps [] + j * cycleSteps [])).pc = Pc.whileHead ∧
      (main env [] (initSteps [] + j * cycleSteps [])).reads = 0 ∧
      stdout (main env [] (initSteps [] + j * cycleSteps [])).trace
        = List.replicate j '\n') := by
  unfold main
  refine ⟨?_, fun tr k => ⟨?_, ?_⟩, fun n => run_isLive env [] h n initial initial_isLive,
    fun j => ?_⟩
  · rw [run_init env [] h]; rfl
  · rw [run_cycle]; rfl
  · rw [emitted_cycle]; rfl
  · rw [stdout_after_cycles env [] h, stdout_pollEvents_nil, run_cycles env [] h]
    simp

/-- Witness for C6: three iterations over the empty table. -/
theorem empty_table_emits_bare_newlines_witness :
    stdout (main ⟨0, fun _ _ => 1⟩ [] (initSteps [] + 3 * cycleSteps [])).trace
      = ['\n', '\n', '\n'] :=
  ((empty_table_emits_bare_newlines ⟨0, fun _ _ => 1⟩ (by decide)).2.2.2 3).2.2

/-! ### Constants -/

/-- C7: the program's channel table is exactly 0, 2, 3, 7, 12, 13, 14, 15, 16 in that order,
its computed length is 9, it has no duplicate, and the argument of every `delay` call is
100: the step at line 29 issues `delay(100)`, and no reachable trace holds a `delay` call
with another argument. -/
theorem channel_table_and_period :
    valid_channels = [0, 2, 3, 7, 12, 13, 14, 15, 16] ∧
    num_valid_channels valid_channels = 9 ∧
    valid_channels.Nodup ∧
    (∀ (env : Env) (table : List Int) (tr : List Event) (k : Nat),
      step env table ⟨Pc.delay, tr, k⟩ = ⟨Pc.whileHead, tr ++ [Event.delay 100], k⟩) ∧
    (∀ (env : Env) (table : List Int) (n : Nat) (ms : Int),
      Event.delay ms ∈ (main env table n).trace → ms = 100) := by
  refine ⟨rfl, rfl, by decide, fun _ _ _ _ => rfl, fun env table n ms hm => ?_⟩
  exact run_delay_arg env table n initial (by simp [initial]) ms hm

/-- Witness for C7: after initialisation and one iteration on the program's table the trace
holds a `delay` call, and its argument is 100. -/
theorem channel_table_and_period_witness :
    Event.delay 100 ∈ (main ⟨0, fun _ _ => 0⟩ valid_channels
      (initSteps valid_channels + cycleSteps valid_channels)).trace ∧
    (100 : Int) = 100 :=
  ⟨by decide,
   channel_table_and_period.2.2.2.2 ⟨0, fun _ _ => 0⟩ valid_channels
     (initSteps valid_channels + cycleSteps valid_channels) 100 (by decide)⟩

/-! ### Pin configuration -/

theorem configEvents_length (cs : List Int) : (configEvents cs).length = 2 * cs.length := by
  induction cs with
  | nil => rfl
  | cons c cs ih => simp only [configEvents, List.length_cons, ih]; omega

theorem configEvents_at (cs : List Int) : ∀ i, i < cs.length →
    (configEvents cs)[2 * i]? = some (Event.pinMode (cs.getD i 0) WiringPiConst.INPUT) ∧
    (configEvents cs)[2 * i + 1]?
      = some (Event.pullUpDnControl (cs.getD i 0) WiringPiConst.PUD_UP) := by
  induction cs with
  | nil => intro i h; simp at h
  | cons c cs ih =>
    intro i h
    cases i with
    | zero => simp [configEvents]
    | succ i =>
      have h2 := ih i (by simpa using h)
      have e1 : 2 * (i + 1) = (2 * i + 1) + 1 := by omega
      rw [e1]
      simpa [configEvents] using h2

theorem configEvents_kind (cs : List Int) :
    ∀ e ∈ configEvents cs, e.isConfig = true ∧ e.isRead = false ∧ e.isPrintf = false := by
  induction cs with
  | nil => intro e he; simp [configEvents] at he
  | cons c cs ih =>
    intro e he
    simp only [configEvents, List.mem_cons] at he
    rcases he with rfl | rfl | he
    · simp [Event.isConfig, Event.isRead, Event.isPrintf]
    · simp [Event.isConfig, Event.isRead, Event.isPrintf]
    · exact ih e he

theorem filter_config_configEvents (cs : List Int) :
    (configEvents cs).filter Event.isConfig = configEvents cs :=
  List.filter_eq_self.mpr (fun e he => (configEvents_kind cs e he).1)

/-- C8: when setup succeeds, the initialisation phase issues exactly the `2N` calls
`pinMode(c_0, INPUT)`, `pullUpDnControl(c_0, PUD_UP)`, ..., `pinMode(c_{N-1}, INPUT)`,
`pullUpDnControl(c_{N-1}, PUD_UP)` right after the setup call and reaches the poll loop;
none of these calls is a read or an output, every earlier trace is an initial segment of
this one, and everything issued afterwards, at any later time, contains no pin
configuration, so the pin-configuration calls of the whole run are exactly these. -/
theorem pin_configuration_once (env : Env) (table : List Int) (h : env.setupResult ≠ -1) :
    main env table (initSteps table)
      = ⟨Pc.whileHead, Event.wiringPiSetup env.setupResult :: configEvents table, 0⟩ ∧
    (configEvents table).length = 2 * table.length ∧
    (∀ i, i < table.length →
      (configEvents table)[2 * i]?
        = some (Event.pinMode (table.getD i 0) WiringPiConst.INPUT) ∧
      (configEvents table)[2 * i + 1]?
        = some (Event.pullUpDnControl (table.getD i 0) WiringPiConst.PUD_UP)) ∧
    (∀ e ∈ configEvents table, e.isRead = false ∧ e.isPrintf = false) ∧
    (∀ n, n ≤ initSteps table →
      (main env table n).trace
        <+: Event.wiringPiSetup env.setupResult :: configEvents table) ∧
    (∀ n, ∃ rest,
      (main env table (initSteps table + n)).trace
        = Event.wiringPiSetup env.setupResult :: configEvents table ++ rest ∧
      (∀ e ∈ rest, e.isConfig = false) ∧
      (main env table (initSteps table + n)).trace.filter Event.isConfig
        = configEvents table) := by
  unfold main
  have hinit := run_init env table h
  refine ⟨hinit, configEvents_length table, configEvents_at table,
    fun e he => (configEvents_kind table e he).2, ?_, ?_⟩
  · intro n hn
    have hx := run_trace_extends env table (initSteps table - n) (run env table n initial)
    rw [← run_add, Nat.add_sub_cancel' hn, hinit] at hx
    exact hx
  · intro n
    obtain ⟨_, rest, hrest, hcfg⟩ := run_running env table n
      ⟨Pc.whileHead, Event.wiringPiSetup env.setupResult :: configEvents table, 0⟩ rfl
    rw [run_add, hinit]
    refine ⟨rest, hrest, hcfg, ?_⟩
    rw [hrest]
    have hnil : rest.filter Event.isConfig = [] :=
      List.filter_eq_nil_iff.mpr (fun e he => by simp [hcfg e he])
    simp only [List.cons_append, List.filter_cons, Event.isConfig, List.filter_append,
      filter_config_configEvents, hnil, List.append_nil]
    simp

/-- Witness for C8: the program's own table; after initialisation and one full iteration the
pin-configuration calls of the trace are the eighteen calls of the initialisation phase. -/
theorem pin_configuration_once_witness :
    (main ⟨0, fun _ _ => 1⟩ valid_channels
        (initSteps valid_channels + cycleSteps valid_channels)).trace.filter
        Event.isConfig = configEvents valid_channels ∧
    (configEvents valid_channels).length = 18 := by
  obtain ⟨_, hlen, _, _, _, hrest⟩ :=
    pin_configuration_once ⟨0, fun _ _ => 1⟩ valid_channels (by decide)
  obtain ⟨_, _, _, hf⟩ := hrest (cycleSteps valid_channels)
  exact ⟨hf, hlen⟩

/-! ### Counting the calls of whole iterations -/

theorem sweepEvents_kind (env : Env) (cs : List Int) : ∀ k,
    ∀ e ∈ sweepEvents env k cs, e.isRead = true ∨ e.isPrintf = true := by
  induction cs with
  | nil => intro k e he; simp [sweepEvents] at he
  | cons c cs ih =>
    intro k e he
    simp only [sweepEvents, List.mem_cons] at he
    rcases he with rfl | rfl | he
    · exact Or.inl rfl
    · exact Or.inr rfl
    · exact ih (k + 1) e he

theorem sweepEvents_countReads (env : Env) (cs : List Int) : ∀ k,
    (sweepEvents env k cs).countP Event.isRead = cs.length := by
  induction cs with
  | nil => intro k; rfl
  | cons c cs ih => intro k; simp [sweepEvents, List.countP_cons, Event.isRead, ih]

theorem tally_append (xs ys : List Event) :
    tally (xs ++ ys)
      = ((tally xs).1 + (tally ys).1, (tally xs).2.1 + (tally ys).2.1,
          (tally xs).2.2.1 + (tally ys).2.2.1, (tally xs).2.2.2 + (tally ys).2.2.2) := by
  simp [tally, List.countP_append, List.count_append]

theorem tally_configEvents (cs : List Int) : tally (configEvents cs) = (0, 0, 0, 0) := by
  have hk := configEvents_kind cs
  have h1 : (configEvents cs).countP Event.isRead = 0 :=
    List.countP_eq_zero.mpr (fun e he => by simp [(hk e he).2.1])
  have h2 : (configEvents cs).count Event.fflush = 0 :=
    List.count_eq_zero.mpr (fun hm => by simpa [Event.isConfig] using (hk _ hm).1)
  have h3 : (configEvents cs).countP Event.isDelay = 0 :=
    List.countP_eq_zero.mpr (fun e he hd => by
      have := (hk e he).1
      cases e <;> simp_all [Event.isConfig, Event.isDelay])
  have h4 : (configEvents cs).count (Event.delay 100) = 0 :=
    List.count_eq_zero.mpr (fun hm => by simpa [Event.isConfig] using (hk _ hm).1)
  simp [tally, h1, h2, h3, h4]

theorem tally_sweepEvents (env : Env) (k : Nat) (cs : List Int) :
    tally (sweepEvents env k cs) = (cs.length, 0, 0, 0) := by
  have hk := sweepEvents_kind env cs k
  have h2 : (sweepEvents env k cs).count Event.fflush = 0 :=
    List.count_eq_zero.mpr (fun hm => by
      simpa [Event.isRead, Event.isPrintf] using hk _ hm)
  have h3 : (sweepEvents env k cs).countP Event.isDelay = 0 :=
    List.countP_eq_zero.mpr (fun e he hd => by
      have := hk e he
      cases e <;> simp_all [Event.isRead, Event.isPrintf, Event.isDelay])
  have h4 : (sweepEvents env k cs).count (Event.delay 100) = 0 :=
    List.count_eq_zero.mpr (fun hm => by
      simpa [Event.isRead, Event.isPrintf] using hk _ hm)
  simp [tally, sweepEvents_countReads, h2, h3, h4]

theorem tally_cycleEvents (env : Env) (k : Nat) (table : List Int) :
    tally (cycleEvents env k table) = (table.length, 1, 1, 1) := by
  unfold cycleEvents
  rw [tally_append, tally_sweepEvents]
  simp [tally, Event.isRead, Event.isDelay, List.countP_cons, List.count_cons]

theorem tally_pollEvents (env : Env) (table : List Int) (j : Nat) :
    tally (pollEvents env table j) = (j * table.length, j, j, j) := by
  induction j with
  | zero => simp [pollEvents, tally]
  | succ j ih =>
    simp only [pollEvents]
    rw [tally_append, ih, tally_cycleEvents]
    simp [Nat.succ_mul]

theorem tally_after_cycles (env : Env) (table : List Int) (h : env.setupResult ≠ -1)
    (j : Nat) :
    tally (run env table (initSteps table + j * cycleSteps table) initial).trace
      = (j * table.length, j, j, j) := by
  rw [run_cycles env table h]
  have hc : Event.wiringPiSetup env.setupResult :: configEvents table ++ pollEvents env table j
      = [Event.wiringPiSetup env.setupResult] ++ (configEvents table ++ pollEvents env table j) :=
    rfl
  rw [hc, tally_append, tally_append, tally_configEvents, tally_pollEvents]
  simp [tally, Event.isRead, Event.isDelay, List.countP_cons, List.count_cons]

/-- C9: every iteration of the poll loop, whatever was done before it and whatever the reads
return, issues the calls of the sweep (only reads and the `printf` of each value just read;
the reads are exactly one `digitalRead` per channel, in table order), then the `printf` of
the newline that completes the line, then one `fflush`, then one `delay(100)`, and returns
to the loop test. The delay argument is the constant 100. Hence, after a successful setup
and `j` iterations, the trace holds exactly `j * N` reads, `j` lines, `j` flushes and `j`
delays, all of them `delay(100)`. -/
theorem iteration_call_sequence (env : Env) (table : List Int) :
    (∀ (tr : List Event) (k : Nat),
      run env table (cycleSteps table) ⟨Pc.whileHead, tr, k⟩
        = ⟨Pc.whileHead,
            tr ++ (sweepEvents env k table
              ++ [Event.printf ['\n'], Event.fflush, Event.delay 100]),
            k + table.length⟩ ∧
      (∀ e ∈ sweepEvents env k table, e.isRead = true ∨ e.isPrintf = true) ∧
      ((sweepEvents env k table).filter Event.isRead).length = table.length ∧
      (∀ i, i < table.length →
        ((sweepEvents env k table).filter Event.isRead)[i]?
          = some (Event.digitalRead (table.getD i 0)
              (env.readValue (k + i) (table.getD i 0)))) ∧
      stdout (sweepEvents env k table ++ [Event.printf ['\n']])
        = line (sweepValues env k table)) ∧
    (env.setupResult ≠ -1 → ∀ j : Nat,
      (main env table (initSteps table + j * cycleSteps table)).trace.countP
        Event.isRead = j * table.length ∧
      (stdout (main env table (initSteps table + j * cycleSteps table)).trace).count
        '\n' = j ∧
      (main env table (initSteps table + j * cycleSteps table)).trace.count
        Event.fflush = j ∧
      (main env table (initSteps table + j * cycleSteps table)).trace.countP
        Event.isDelay = j ∧
      (main env table (initSteps table + j * cycleSteps table)).trace.count
        (Event.delay 100) = j) := by
  refine ⟨fun tr k => ⟨?_, sweepEvents_kind env table k, ?_, sweepReads_at env table k, ?_⟩,
    fun h j => ?_⟩
  · rw [run_cycle]; rfl
  · rw [← List.countP_eq_length_filter, sweepEvents_countReads]
  · rw [stdout_append, stdout_sweepEvents]; rfl
  · unfold main
    have ht := tally_after_cycles env table h j
    simp only [tally, Prod.mk.injEq] at ht
    refine ⟨ht.1, ?_, ht.2.1, ht.2.2.1, ht.2.2.2⟩
    rw [stdout_after_cycles env table h]
    exact stdout_pollEvents_count env table j

/-- Witness for C9: three iterations on the program's own table. -/
theorem iteration_call_sequence_witness :
    (main ⟨0, fun _ _ => 1⟩ valid_channels
      (initSteps valid_channels + 3 * cycleSteps valid_channels)).trace.countP
        Event.isRead = 27 ∧
    (main ⟨0, fun _ _ => 1⟩ valid_channels
      (initSteps valid_channels + 3 * cycleSteps valid_channels)).trace.count
        (Event.delay 100) = 3 :=
  ⟨((iteration_call_sequence ⟨0, fun _ _ => 1⟩ valid_channels).2 (by decide) 3).1,
   ((iteration_call_sequence ⟨0, fun _ _ => 1⟩ valid_channels).2 (by decide) 3).2.2.2.2⟩

/-- C10: once setup has succeeded, for every channel table and every behaviour of the reads,
`main` never returns: no reachable state is at `return 0` or has exited; a step from a
program point of the poll loop leads to a program point of the poll loop; from the end of
initialisation on, every state is in the poll loop, so setup and initialisation are never
re-entered; and for every `j` the program reaches the loop test with `j` complete
sample-and-emit cycles in its trace. -/
theorem poll_loop_never_terminates (env : Env) (table : List Int)
    (h : env.setupResult ≠ -1) :
    (∀ n : Nat, (main env table n).pc ≠ Pc.return0 ∧
      ∀ status : Int, (main env table n).pc ≠ Pc.exited status) ∧
    (∀ s : State, s.pc.isRunning = true → (step env table s).pc.isRunning = true) ∧
    (∀ n : Nat, (main env table (initSteps table + n)).pc.isRunning = true ∧
      (main env table (initSteps table + n)).pc ≠ Pc.entry ∧
      ∀ i : Nat, (main env table (initSteps table + n)).pc ≠ Pc.initFor i) ∧
    (∀ j : Nat, main env table (initSteps table + j * cycleSteps table)
      = ⟨Pc.whileHead,
          Event.wiringPiSetup env.setupResult :: configEvents table ++ pollEvents env table j,
          j * table.length⟩) := by
  unfold main
  refine ⟨fun n => ?_, step_isRunning env table, fun n => ?_, run_cycles env table h⟩
  · have hl := run_isLive env table h n initial initial_isLive
    constructor
    · intro hp; rw [hp] at hl; simp [Pc.isLive] at hl
    · intro status hp; rw [hp] at hl; simp [Pc.isLive] at hl
  · have hr : (run env table (initSteps table + n) initial).pc.isRunning = true := by
      rw [run_add, run_init env table h]
      exact (run_running env table n
        ⟨Pc.whileHead, Event.wiringPiSetup env.setupResult :: configEvents table, 0⟩ rfl).1
    refine ⟨hr, ?_, ?_⟩
    · intro hp; rw [hp] at hr; simp [Pc.isRunning] at hr
    · intro i hp; rw [hp] at hr; simp [Pc.isRunning] at hr

/-- Witness for C10: the program's own table, at the loop test after two cycles. -/
theorem poll_loop_never_terminates_witness :
    (main ⟨0, fun _ _ => 1⟩ valid_channels
      (initSteps valid_channels + 2 * cycleSteps valid_channels)).pc = Pc.whileHead ∧
    (main ⟨0, fun _ _ => 1⟩ valid_channels 1000).pc ≠ Pc.return0 :=
  ⟨congrArg State.pc
      ((poll_loop_never_terminates ⟨0, fun _ _ => 1⟩ valid_channels (by decide)).2.2.2 2),
   ((poll_loop_never_terminates ⟨0, fun _ _ => 1⟩ valid_channels (by decide)).1 1000).1⟩

end Gpio3
